import Mathlib

/-!
Shallow embedding of the numeric core of the BackgroundNoiseAnalyzer
repository: the RMS loudness measurement, the two level normalizers
(`survey_app.normalize_to_db`, `generate_levels.normalize_to_level_db`),
the crossfading loop synthesizer (`survey_app.extend_noise_with_crossfade`)
and the mixer (`survey_app.mix_clean_and_noise`).  Sample buffers are
`List ℝ`; Python ints are `ℤ`/`ℕ`; float arithmetic is modelled by exact
real arithmetic.  Fallible code returns `Except PyErr`.
-/

/-- `np.finfo(float).eps`: the IEEE-754 double machine epsilon, `2 ^ (-52)`.
Used as the epsilon guard in `survey_app.py` / `generate_levels.py` /
`process_originals.py` (all three bind the same value). -/
noncomputable def EPS : ℝ := 2 ^ (-52 : ℤ)

/-- `CLIP_THRESHOLD = 0.99` from `generate_levels.py`. -/
noncomputable def CLIP_THRESHOLD : ℝ := 0.99

/-- `CROSSFADE_SEC = 0.2` from `survey_app.py`. -/
noncomputable def CROSSFADE_SEC : ℝ := 0.2

/-- Python `int(x)` on a float: truncation toward zero. -/
noncomputable def pyInt (x : ℝ) : ℤ := if 0 ≤ x then ⌊x⌋ else ⌈x⌉

/-- Errors the embedded code can signal.  `zeroDivision` models Python's
`ZeroDivisionError`; `invalidInput` models the tagged `InvalidInput`
condition described in the specification (no code path produces it);
`nonTermination` marks exhaustion of the recursion fuel, which is set
above the loop's proven iteration bound and therefore never occurs on
reachable inputs. -/
inductive PyErr where
  | zeroDivision
  | invalidInput
  | nonTermination
  deriving DecidableEq

/-- `(audio ** 2).sum()`: sum of squared samples. -/
noncomputable def sumSq (audio : List ℝ) : ℝ := (audio.map (fun x => x ^ 2)).sum

/-- `(audio ** 2).mean()`: mean of squared samples (0 on the empty buffer,
where numpy would produce NaN; no claim depends on the empty case). -/
noncomputable def meanSq (audio : List ℝ) : ℝ := sumSq audio / audio.length

/-- `(audio ** 2).mean() ** 0.5`: the linear RMS used by `rms_dbfs`,
`normalize_to_db` (survey_app.py) and `rms`/`normalize_to_level_db`
(generate_levels.py), all of which compute this same expression. -/
noncomputable def rmsVal (audio : List ℝ) : ℝ := meanSq audio ^ (0.5 : ℝ)

/-- `rms_dbfs` from `survey_app.py` (and, identically, `process_originals.py`):
`20 * np.log10(rms + EPS)`. -/
noncomputable def rms_dbfs (audio : List ℝ) : ℝ :=
  20 * Real.logb 10 (rmsVal audio + EPS)

/-- `normalize_to_db` from `survey_app.py`: scale to the target RMS with an
epsilon-guarded division; no peak limiting. -/
noncomputable def normalize_to_db (audio : List ℝ) (target_db : ℝ) : List ℝ :=
  if rmsVal audio ≤ 0 then audio
  else audio.map (fun x => x * ((10 : ℝ) ^ (target_db / 20) / (rmsVal audio + EPS)))

/-- `np.max(np.abs(l))`, with 0 for the empty list (numpy raises there; the
code only evaluates it on nonempty buffers, whose samples have
nonnegative absolute value, so the 0 initial value is inert). -/
noncomputable def listPeak (l : List ℝ) : ℝ := l.foldr (fun x m => max |x| m) 0

open Classical in
/-- `normalize_to_level_db` from `generate_levels.py`: scale to the target
RMS, then peak-limit by uniform division if any scaled sample exceeds
`CLIP_THRESHOLD`. -/
noncomputable def normalize_to_level_db (audio : List ℝ) (target_db : ℝ) : List ℝ :=
  if rmsVal audio ≤ 0 then audio
  else
    let scale := (10 : ℝ) ^ (target_db / 20) / (rmsVal audio + EPS)
    let out := audio.map (fun x => x * scale)
    if ∃ x ∈ out, CLIP_THRESHOLD < |x| then
      out.map (fun x => x / (listPeak out / CLIP_THRESHOLD))
    else out

/-- `np.linspace(a, b, num)` with default `endpoint=True`: `num` evenly
spaced values from `a` to `b` inclusive; `[a]` when `num = 1`. -/
noncomputable def linspace (a b : ℝ) (num : ℕ) : List ℝ :=
  if num = 1 then [a]
  else (List.range num).map (fun (i : ℕ) => a + (i : ℝ) * (b - a) / ((num - 1 : ℕ) : ℝ))

/-- Numpy slice assignment `out[i : i + seg.length] = seg` on a list. -/
def writeSlice (out : List ℝ) (i : ℕ) (seg : List ℝ) : List ℝ :=
  out.take i ++ seg ++ out.drop (i + seg.length)

/-- The `while pos < target_len` loop of `extend_noise_with_crossfade` after
its first (`first = True`) iteration, as fuel-indexed structural recursion.
Each constructor-by-constructor step mirrors lines 91–110 of
`survey_app.py`: crossfade the overlap region in place, then append the
non-overlapping remainder of the next copy.  `none` means the fuel ran
out (the Python loop would still be running). -/
noncomputable def extendLoop (noise : List ℝ) (n cf target_len : ℕ) :
    ℕ → List ℝ → ℕ → Option (List ℝ)
  | 0, _, _ => none
  | fuel + 1, out, pos =>
    if pos < target_len then
      let overlap_len := min cf (target_len - (pos - cf))
      if overlap_len = 0 then some out
      else
        let prev_tail := (out.drop (pos - cf)).take overlap_len
        let next_head := noise.take overlap_len
        let seg := List.zipWith (· + ·)
          (List.zipWith (· * ·) prev_tail ((linspace 1 0 cf).take overlap_len))
          (List.zipWith (· * ·) next_head ((linspace 0 1 cf).take overlap_len))
        let out2 := writeSlice out (pos - cf) seg
        let pos2 := pos - cf + overlap_len
        if target_len ≤ pos2 then some out2
        else
          let rest_len := min (n - cf) (target_len - pos2)
          if 0 < rest_len then
            extendLoop noise n cf target_len fuel
              (writeSlice out2 pos2 ((noise.drop cf).take rest_len)) (pos2 + rest_len)
          else
            extendLoop noise n cf target_len fuel out2 pos2
    else some out

/-- `extend_noise_with_crossfade` from `survey_app.py`.  Branches, in source
order: truncate when the source already reaches the target; crossfade
length `cf = min(int(crossfade_sec * sr), n // 2, max(1, (n - 1) // 2))`
(Python floor division, hence `Int.fdiv`); plain tiling fallback when
`cf < 1` (for `n = 0` the Python expression `target_len // n` raises
`ZeroDivisionError`); otherwise the crossfaded loop, whose first
iteration writes `noise[:min(n, target_len)]` at position 0. -/
noncomputable def extend_noise_with_crossfade (noise : List ℝ) (target_len : ℕ)
    (sr : ℤ) (crossfade_sec : ℝ) : Except PyErr (List ℝ) :=
  let n := noise.length
  if target_len ≤ n then .ok (noise.take target_len)
  else
    let cf : ℤ := min (pyInt (crossfade_sec * (sr : ℝ)))
      (min ((n : ℤ) / 2) (max 1 (Int.fdiv ((n : ℤ) - 1) 2)))
    if cf < 1 then
      if n = 0 then .error .zeroDivision
      else
        let repeats := target_len / n + 1
        .ok (((List.replicate repeats noise).flatten).take target_len)
    else
      let cfN := cf.toNat
      let add_len := min n target_len
      let out1 := writeSlice (List.replicate target_len (0 : ℝ)) 0 (noise.take add_len)
      match extendLoop noise n cfN target_len (target_len + 1) out1 add_len with
      | some out => .ok out
      | none => .error .nonTermination

/-- `np.clip(x, -1.0, 1.0)` on one sample. -/
noncomputable def clip1 (x : ℝ) : ℝ := max (-1) (min 1 x)

/-- The numeric core of `mix_clean_and_noise` from `survey_app.py` (lines
123–133, after the decode collaborator has produced the two mono
buffers): normalize the noise, loop-extend or truncate it to the speech
length, normalize the speech, sum, hard-clip to `[-1, 1]`, and report
`snr_db = clean_level_db - noise_level_db`. -/
noncomputable def mix_clean_and_noise (clean noise : List ℝ) (sr : ℤ)
    (noise_level_db clean_level_db : ℝ) : Except PyErr (List ℝ × ℝ) :=
  let noise_norm := normalize_to_db noise noise_level_db
  let looped : Except PyErr (List ℝ) :=
    if noise_norm.length < clean.length then
      extend_noise_with_crossfade noise_norm clean.length sr CROSSFADE_SEC
    else .ok (noise_norm.take clean.length)
  match looped with
  | .error e => .error e
  | .ok nn =>
    let clean_norm := normalize_to_db clean clean_level_db
    let mixed := (List.zipWith (· + ·) clean_norm nn).map clip1
    .ok (mixed, clean_level_db - noise_level_db)

/-! ### Basic helper lemmas -/

lemma list_sum_nonneg {l : List ℝ} (h : ∀ x ∈ l, 0 ≤ x) : 0 ≤ l.sum := by
  induction l with
  | nil => simp
  | cons a t ih =>
    simp only [List.sum_cons]
    have ha := h a (by simp)
    have ht := ih (fun x hx => h x (by simp [hx]))
    linarith

lemma list_sum_eq_zero {l : List ℝ} (h : ∀ x ∈ l, 0 ≤ x) (hs : l.sum = 0) :
    ∀ x ∈ l, x = 0 := by
  induction l with
  | nil => simp
  | cons a t ih =>
    have ha := h a (by simp)
    have ht : 0 ≤ t.sum := list_sum_nonneg (fun x hx => h x (by simp [hx]))
    simp only [List.sum_cons] at hs
    have ha0 : a = 0 := by linarith
    have hts : t.sum = 0 := by linarith
    intro x hx
    rcases List.mem_cons.mp hx with rfl | hx'
    · exact ha0
    · exact ih (fun y hy => h y (by simp [hy])) hts x hx'

lemma sumSq_nonneg (audio : List ℝ) : 0 ≤ sumSq audio := by
  refine list_sum_nonneg ?_
  intro x hx
  rcases List.mem_map.mp hx with ⟨y, _, rfl⟩
  positivity

lemma meanSq_nonneg (audio : List ℝ) : 0 ≤ meanSq audio := by
  unfold meanSq
  have := sumSq_nonneg audio
  positivity

lemma rmsVal_nonneg (audio : List ℝ) : 0 ≤ rmsVal audio :=
  Real.rpow_nonneg (meanSq_nonneg audio) _

/-- A buffer with nonpositive RMS is entirely zero. -/
lemma rmsVal_le_zero_all_zero {audio : List ℝ} (h : rmsVal audio ≤ 0) :
    ∀ x ∈ audio, x = 0 := by
  have h0 : rmsVal audio = 0 := le_antisymm h (rmsVal_nonneg audio)
  have hm : meanSq audio = 0 := by
    by_contra hne
    have hpos : 0 < meanSq audio := lt_of_le_of_ne (meanSq_nonneg audio) (Ne.symm hne)
    have : rmsVal audio ≠ 0 := by
      unfold rmsVal
      exact ne_of_gt (Real.rpow_pos_of_pos hpos _)
    exact this h0
  intro x hx
  have hlen : (audio.length : ℝ) ≠ 0 := by
    have : audio.length ≠ 0 := by
      intro hl
      exact (List.ne_nil_of_mem hx) (List.length_eq_zero.mp hl)
    exact_mod_cast this
  have hsum : sumSq audio = 0 := by
    unfold meanSq at hm
    field_simp at hm
    exact hm
  have hz := list_sum_eq_zero (l := audio.map (fun x => x ^ 2))
    (by intro y hy; rcases List.mem_map.mp hy with ⟨z, _, rfl⟩; positivity) hsum
  have := hz (x ^ 2) (List.mem_map_of_mem _ hx)
  exact pow_eq_zero_iff (n := 2) (by norm_num) |>.mp this

lemma listPeak_nonneg (l : List ℝ) : 0 ≤ listPeak l := by
  induction l with
  | nil => simp [listPeak]
  | cons a t ih =>
    simp only [listPeak, List.foldr_cons] at *
    exact le_trans ih (le_max_right _ _)

lemma abs_le_listPeak {l : List ℝ} {x : ℝ} (hx : x ∈ l) : |x| ≤ listPeak l := by
  induction l with
  | nil => simp at hx
  | cons a t ih =>
    simp only [listPeak, List.foldr_cons]
    rcases List.mem_cons.mp hx with rfl | hx'
    · exact le_max_left _ _
    · exact le_trans (ih hx') (le_max_right _ _)

lemma writeSlice_length {out seg : List ℝ} {i : ℕ} (h : i + seg.length ≤ out.length) :
    (writeSlice out i seg).length = out.length := by
  unfold writeSlice
  simp only [List.length_append, List.length_take, List.length_drop]
  omega

lemma writeSlice_forall {out seg : List ℝ} {i : ℕ} {P : ℝ → Prop}
    (hout : ∀ x ∈ out, P x) (hseg : ∀ x ∈ seg, P x) :
    ∀ x ∈ writeSlice out i seg, P x := by
  intro x hx
  unfold writeSlice at hx
  rcases List.mem_append.mp hx with hx' | hx'
  · rcases List.mem_append.mp hx' with hx'' | hx''
    · exact hout x ((List.take_sublist _ _).mem hx'')
    · exact hseg x hx''
  · exact hout x ((List.drop_sublist _ _).mem hx')

lemma linspace_length (a b : ℝ) (num : ℕ) : (linspace a b num).length = num := by
  unfold linspace
  split
  · simp only [List.length_cons, List.length_nil]
    omega
  · rw [List.length_map, List.length_range]

/-- At every index the fade-out ramp `linspace 1 0 cf` and the fade-in ramp
`linspace 0 1 cf` are nonnegative and sum to exactly 1. -/
lemma fade_weights (cf i : ℕ) (h1 : i < (linspace (1 : ℝ) 0 cf).length)
    (h2 : i < (linspace (0 : ℝ) 1 cf).length) :
    0 ≤ (linspace (1 : ℝ) 0 cf)[i] ∧ 0 ≤ (linspace (0 : ℝ) 1 cf)[i] ∧
      (linspace (1 : ℝ) 0 cf)[i] + (linspace (0 : ℝ) 1 cf)[i] = 1 := by
  rw [linspace_length] at h1 h2
  unfold linspace
  by_cases hc : cf = 1
  · subst hc
    have hi : i = 0 := by omega
    subst hi
    norm_num
  · have hcf2 : 2 ≤ cf := by omega
    have hd : (1 : ℝ) ≤ ((cf - 1 : ℕ) : ℝ) := by
      have : 1 ≤ cf - 1 := by omega
      exact_mod_cast this
    have hd0 : (0 : ℝ) < ((cf - 1 : ℕ) : ℝ) := by linarith
    have hi1 : (i : ℝ) ≤ ((cf - 1 : ℕ) : ℝ) := by
      have : i ≤ cf - 1 := by omega
      exact_mod_cast this
    have hi0 : (0 : ℝ) ≤ (i : ℝ) := by positivity
    have hq1 : (i : ℝ) / ((cf - 1 : ℕ) : ℝ) ≤ 1 := (div_le_one hd0).mpr hi1
    have hq0 : (0 : ℝ) ≤ (i : ℝ) / ((cf - 1 : ℕ) : ℝ) := by positivity
    simp only [if_neg hc, List.getElem_map, List.getElem_range]
    have e1 : (1 : ℝ) + (i : ℝ) * (0 - 1) / ((cf - 1 : ℕ) : ℝ)
        = 1 - (i : ℝ) / ((cf - 1 : ℕ) : ℝ) := by ring
    have e2 : (0 : ℝ) + (i : ℝ) * (1 - 0) / ((cf - 1 : ℕ) : ℝ)
        = (i : ℝ) / ((cf - 1 : ℕ) : ℝ) := by ring
    rw [e1, e2]
    refine ⟨by linarith, hq0, by ring⟩

/-- Every element of the crossfaded overlap segment is bounded by any common
bound on the two source segments: the segment is a pointwise convex
combination. -/
lemma crossfade_seg_bound (p q : List ℝ) (cf ol : ℕ) (M : ℝ)
    (hp : ∀ x ∈ p, |x| ≤ M) (hq : ∀ x ∈ q, |x| ≤ M) :
    ∀ x ∈ List.zipWith (· + ·)
        (List.zipWith (· * ·) p ((linspace 1 0 cf).take ol))
        (List.zipWith (· * ·) q ((linspace 0 1 cf).take ol)), |x| ≤ M := by
  intro x hx
  rcases List.mem_iff_getElem.mp hx with ⟨i, hi, rfl⟩
  have hlen := hi
  simp only [List.length_zipWith, List.length_take, linspace_length, lt_min_iff] at hlen
  obtain ⟨⟨hip, hifo⟩, hiq, hifi⟩ := hlen
  have hfo1 : i < (linspace (1 : ℝ) 0 cf).length := by rw [linspace_length]; omega
  have hfi1 : i < (linspace (0 : ℝ) 1 cf).length := by rw [linspace_length]; omega
  rw [List.getElem_zipWith, List.getElem_zipWith, List.getElem_zipWith,
    List.getElem_take, List.getElem_take]
  obtain ⟨hfo0, hfi0, hsum⟩ := fade_weights cf i hfo1 hfi1
  have hpb := hp _ (List.getElem_mem hip)
  have hqb := hq _ (List.getElem_mem hiq)
  have hM0 : 0 ≤ M := le_trans (abs_nonneg _) hpb
  calc |p[i] * (linspace 1 0 cf)[i] + q[i] * (linspace 0 1 cf)[i]|
      ≤ |p[i] * (linspace 1 0 cf)[i]| + |q[i] * (linspace 0 1 cf)[i]| := abs_add _ _
    _ = |p[i]| * (linspace 1 0 cf)[i] + |q[i]| * (linspace 0 1 cf)[i] := by
        rw [abs_mul, abs_mul, abs_of_nonneg hfo0, abs_of_nonneg hfi0]
    _ ≤ M * (linspace 1 0 cf)[i] + M * (linspace 0 1 cf)[i] := by
        apply add_le_add <;> apply mul_le_mul_of_nonneg_right <;> assumption
    _ = M := by rw [← mul_add, hsum, mul_one]

/-- Invariant lemma for the crossfading loop: from any reachable state
(`out` of target length, write position between the source length and the
target, samples bounded by `M`), the loop terminates within the remaining
fuel — each iteration advances `pos` by `min (n - cf) (target_len - pos) ≥ 1`
— and returns a buffer of the target length whose samples stay bounded
by `M`. -/
lemma extendLoop_spec (noise : List ℝ) (cf target_len : ℕ) (M : ℝ)
    (hM : ∀ x ∈ noise, |x| ≤ M)
    (hcf1 : 1 ≤ cf) (hcfn : 2 * cf ≤ noise.length) :
    ∀ (fuel : ℕ) (out : List ℝ) (pos : ℕ),
      out.length = target_len → noise.length ≤ pos → pos ≤ target_len →
      target_len - pos < fuel → (∀ x ∈ out, |x| ≤ M) →
      ∃ outF, extendLoop noise noise.length cf target_len fuel out pos = some outF ∧
        outF.length = target_len ∧ (∀ x ∈ outF, |x| ≤ M) := by
  intro fuel
  induction fuel with
  | zero =>
    intro out pos _ _ _ hfuel _
    omega
  | succ fuel ih =>
    intro out pos hlen hnpos hpostl hfuel hbound
    by_cases hlt : pos < target_len
    · have hcfpos : cf ≤ pos := by omega
      have hol : min cf (target_len - (pos - cf)) = cf := by omega
      have hpos2 : pos - cf + cf = pos := by omega
      have hrest : 0 < min (noise.length - cf) (target_len - pos) := by omega
      have hseglen : (List.zipWith (· + ·)
          (List.zipWith (· * ·) ((out.drop (pos - cf)).take cf) ((linspace 1 0 cf).take cf))
          (List.zipWith (· * ·) (noise.take cf) ((linspace 0 1 cf).take cf))).length = cf := by
        simp only [List.length_zipWith, List.length_take, List.length_drop, linspace_length]
        omega
      unfold extendLoop
      rw [if_pos hlt]
      simp only [hol, hpos2, if_neg (show ¬(cf = 0) by omega),
        if_neg (show ¬(target_len ≤ pos) by omega), if_pos hrest]
      apply ih
      · rw [writeSlice_length, writeSlice_length]
        · exact hlen
        · rw [hseglen, hlen]
          omega
        · rw [writeSlice_length]
          · simp only [List.length_take, List.length_drop]
            rw [hlen]
            omega
          · rw [hseglen, hlen]
            omega
      · omega
      · omega
      · omega
      · apply writeSlice_forall
        · apply writeSlice_forall hbound
          apply crossfade_seg_bound
          · intro x hx
            exact hbound x ((List.drop_sublist _ _).mem ((List.take_sublist _ _).mem hx))
          · intro x hx
            exact hM x ((List.take_sublist _ _).mem hx)
        · intro x hx
          exact hM x ((List.drop_sublist _ _).mem ((List.take_sublist _ _).mem hx))
    · refine ⟨out, ?_, hlen, hbound⟩
      unfold extendLoop
      rw [if_neg hlt]

/-- Top-level behavior of the loop synthesizer on any nonempty source: it
succeeds, the output has exactly the target length, and every output
sample is bounded by the source peak. -/
lemma extend_spec (noise : List ℝ) (target_len : ℕ) (sr : ℤ) (cfs : ℝ)
    (hne : 1 ≤ noise.length) :
    ∃ out, extend_noise_with_crossfade noise target_len sr cfs = .ok out ∧
      out.length = target_len ∧ ∀ x ∈ out, |x| ≤ listPeak noise := by
  unfold extend_noise_with_crossfade
  by_cases h1 : target_len ≤ noise.length
  · rw [if_pos h1]
    refine ⟨noise.take target_len, rfl, ?_, ?_⟩
    · rw [List.length_take]
      omega
    · intro x hx
      exact abs_le_listPeak ((List.take_sublist _ _).mem hx)
  · rw [if_neg h1]
    by_cases h2 : min (pyInt (cfs * (sr : ℝ)))
        (min ((noise.length : ℤ) / 2) (max 1 (Int.fdiv ((noise.length : ℤ) - 1) 2))) < 1
    · rw [if_pos h2, if_neg (show ¬(noise.length = 0) by omega)]
      refine ⟨_, rfl, ?_, ?_⟩
      · rw [List.length_take, List.length_flatten]
        have hmap : ((List.replicate (target_len / noise.length + 1) noise).map
            List.length).sum = (target_len / noise.length + 1) * noise.length := by
          rw [List.map_replicate, List.sum_replicate, smul_eq_mul]
        rw [hmap]
        have hdm := Nat.div_add_mod target_len noise.length
        have hml := Nat.mod_lt target_len (show 0 < noise.length by omega)
        have hexp : (target_len / noise.length + 1) * noise.length
            = noise.length * (target_len / noise.length) + noise.length := by ring
        omega
      · intro x hx
        have hx' := (List.take_sublist _ _).mem hx
        rcases List.mem_flatten.mp hx' with ⟨l, hl, hxl⟩
        rcases List.eq_of_mem_replicate hl with rfl
        exact abs_le_listPeak hxl
    · rw [if_neg h2]
      set cf : ℤ := min (pyInt (cfs * (sr : ℝ)))
        (min ((noise.length : ℤ) / 2) (max 1 (Int.fdiv ((noise.length : ℤ) - 1) 2))) with hcf
      have hcf1 : 1 ≤ cf := by omega
      have hcfhalf : cf ≤ (noise.length : ℤ) / 2 :=
        le_trans (min_le_right _ _) (min_le_left _ _)
      have hcfN1 : 1 ≤ cf.toNat := by omega
      have hcfNn : 2 * cf.toNat ≤ noise.length := by omega
      have hadd : min noise.length target_len = noise.length := by omega
      rw [hadd]
      have hout1len : (writeSlice (List.replicate target_len (0 : ℝ)) 0
          (noise.take noise.length)).length = target_len := by
        rw [writeSlice_length]
        · rw [List.length_replicate]
        · rw [List.length_replicate, List.length_take]
          omega
      have hout1b : ∀ x ∈ writeSlice (List.replicate target_len (0 : ℝ)) 0
          (noise.take noise.length), |x| ≤ listPeak noise := by
        apply writeSlice_forall
        · intro x hx
          rcases List.eq_of_mem_replicate hx with rfl
          simpa using listPeak_nonneg noise
        · intro x hx
          exact abs_le_listPeak ((List.take_sublist _ _).mem hx)
      obtain ⟨outF, hF, hFlen, hFb⟩ := extendLoop_spec noise cf.toNat target_len
        (listPeak noise) (fun x hx => abs_le_listPeak hx) hcfN1 hcfNn
        (target_len + 1) _ noise.length hout1len le_rfl (by omega) (by omega) hout1b
      refine ⟨outF, ?_, hFlen, hFb⟩
      simp only [hF]

lemma normalize_to_db_length (audio : List ℝ) (t : ℝ) :
    (normalize_to_db audio t).length = audio.length := by
  unfold normalize_to_db
  split
  · rfl
  · rw [List.length_map]

lemma normalize_to_level_db_length (audio : List ℝ) (t : ℝ) :
    (normalize_to_level_db audio t).length = audio.length := by
  unfold normalize_to_level_db
  split
  · rfl
  · dsimp only
    split
    · rw [List.length_map, List.length_map]
    · rw [List.length_map]

lemma abs_clip1_le_one (x : ℝ) : |clip1 x| ≤ 1 := by
  unfold clip1
  rw [abs_le]
  constructor
  · exact le_max_left _ _
  · exact max_le (by norm_num) (min_le_left _ _)

/-- Whenever the loop synthesizer returns a buffer, that buffer has exactly
the target length (source empty or not). -/
lemma extend_ok_length {noise : List ℝ} {target_len : ℕ} {sr : ℤ} {cfs : ℝ}
    {out : List ℝ}
    (h : extend_noise_with_crossfade noise target_len sr cfs = .ok out) :
    out.length = target_len := by
  by_cases hne : 1 ≤ noise.length
  · obtain ⟨out2, h2, hlen, _⟩ := extend_spec noise target_len sr cfs hne
    rw [h2] at h
    injection h with h
    rw [← h]
    exact hlen
  · have hn0 : noise.length = 0 := by omega
    unfold extend_noise_with_crossfade at h
    by_cases h1 : target_len ≤ noise.length
    · rw [if_pos h1] at h
      injection h with h
      rw [← h, List.length_take]
      omega
    · exfalso
      rw [if_neg h1] at h
      have hz : (noise.length : ℤ) = 0 := by exact_mod_cast hn0
      have hcflt : min (pyInt (cfs * (sr : ℝ)))
          (min ((noise.length : ℤ) / 2)
            (max 1 (Int.fdiv ((noise.length : ℤ) - 1) 2))) < 1 := by
        rw [hz]
        have e0 : min ((0 : ℤ) / 2) (max 1 (Int.fdiv ((0 : ℤ) - 1) 2)) = 0 := by decide
        rw [e0]
        exact lt_of_le_of_lt (min_le_right _ _) one_pos
      rw [if_pos hcflt, if_pos hn0] at h
      exact Except.noConfusion h

/-- Inversion of a successful mix: the reported SNR is the difference of the
requested levels, the output has the speech length, and every sample of
the hard-clipped output is within `[-1, 1]`. -/
lemma mix_ok_inv {clean noise : List ℝ} {sr : ℤ} {nl cl : ℝ} {out : List ℝ}
    {snr : ℝ}
    (h : mix_clean_and_noise clean noise sr nl cl = .ok (out, snr)) :
    snr = cl - nl ∧ out.length = clean.length ∧ ∀ x ∈ out, |x| ≤ 1 := by
  unfold mix_clean_and_noise at h
  dsimp only at h
  by_cases hsh : (normalize_to_db noise nl).length < clean.length
  · rw [if_pos hsh] at h
    cases hext : extend_noise_with_crossfade (normalize_to_db noise nl)
        clean.length sr CROSSFADE_SEC with
    | error e =>
      rw [hext] at h
      exact Except.noConfusion h
    | ok nn =>
      rw [hext] at h
      dsimp only at h
      injection h with h
      have h1 := congrArg Prod.fst h
      have h2 := congrArg Prod.snd h
      simp only at h1 h2
      refine ⟨h2.symm, ?_, ?_⟩
      · rw [← h1, List.length_map, List.length_zipWith, normalize_to_db_length,
          extend_ok_length hext]
        omega
      · intro x hx
        rw [← h1] at hx
        rcases List.mem_map.mp hx with ⟨y, _, rfl⟩
        exact abs_clip1_le_one y
  · rw [if_neg hsh] at h
    injection h with h
    have h1 := congrArg Prod.fst h
    have h2 := congrArg Prod.snd h
    simp only at h1 h2
    refine ⟨h2.symm, ?_, ?_⟩
    · rw [← h1, List.length_map, List.length_zipWith, normalize_to_db_length,
        List.length_take]
      omega
    · intro x hx
      rw [← h1] at hx
      rcases List.mem_map.mp hx with ⟨y, _, rfl⟩
      exact abs_clip1_le_one y

lemma clip_threshold_pos : (0 : ℝ) < CLIP_THRESHOLD := by
  unfold CLIP_THRESHOLD
  norm_num

/-- C3 (amended): both normalizers preserve the buffer length, and the
peak-limiting normalizer `normalize_to_level_db` (generate_levels.py)
keeps every output sample within the clip threshold 0.99; the survey-app
normalizer `normalize_to_db` enforces no such bound (see the
counterexample). -/
theorem C3_normalize_level_length_and_peak (audio : List ℝ) (t : ℝ) :
    (normalize_to_level_db audio t).length = audio.length ∧
    (normalize_to_db audio t).length = audio.length ∧
    ∀ x ∈ normalize_to_level_db audio t, |x| ≤ CLIP_THRESHOLD := by
  refine ⟨normalize_to_level_db_length audio t, normalize_to_db_length audio t, ?_⟩
  unfold normalize_to_level_db
  split
  · intro x hx
    rw [rmsVal_le_zero_all_zero (by assumption) x hx]
    simpa using le_of_lt clip_threshold_pos
  · dsimp only
    split
    · rename_i hex
      intro x hx
      rcases List.mem_map.mp hx with ⟨y, hy, rfl⟩
      obtain ⟨z, hz, hzgt⟩ := hex
      have hpeak : CLIP_THRESHOLD < listPeak (audio.map
          (fun x => x * ((10 : ℝ) ^ (t / 20) / (rmsVal audio + EPS)))) :=
        lt_of_lt_of_le hzgt (abs_le_listPeak hz)
      have hpeak0 : (0 : ℝ) < listPeak (audio.map
          (fun x => x * ((10 : ℝ) ^ (t / 20) / (rmsVal audio + EPS)))) :=
        lt_trans clip_threshold_pos hpeak
      have hy' : |y| ≤ listPeak (audio.map
          (fun x => x * ((10 : ℝ) ^ (t / 20) / (rmsVal audio + EPS)))) :=
        abs_le_listPeak hy
      rw [abs_div, abs_of_pos (div_pos hpeak0 clip_threshold_pos)]
      rw [div_le_iff₀ (div_pos hpeak0 clip_threshold_pos)]
      have he : CLIP_THRESHOLD * (listPeak (audio.map
          (fun x => x * ((10 : ℝ) ^ (t / 20) / (rmsVal audio + EPS))))
            / CLIP_THRESHOLD) = listPeak (audio.map
          (fun x => x * ((10 : ℝ) ^ (t / 20) / (rmsVal audio + EPS)))) := by
        have hne := ne_of_gt clip_threshold_pos
        field_simp
      rw [he]
      exact hy'
    · rename_i hex
      push_neg at hex
      intro x hx
      exact hex x hx

/-- C3 counterexample: on the one-sample buffer `[1]` with target +20 dBFS,
the survey-app normalizer `normalize_to_db` produces a sample of absolute
value `10 / (1 + EPS) > 0.99`, violating the claimed clip-threshold
bound. -/
theorem C3_counterexample :
    ¬ (∀ x ∈ normalize_to_db [1] 20, |x| ≤ CLIP_THRESHOLD) := by
  intro hall
  have hmean : meanSq [1] = 1 := by
    unfold meanSq sumSq
    norm_num
  have hrms : rmsVal [1] = 1 := by
    unfold rmsVal
    rw [hmean, Real.one_rpow]
  have hrmsnot : ¬ (rmsVal [1] ≤ 0) := by
    rw [hrms]
    norm_num
  have hmem : (1 : ℝ) * ((10 : ℝ) ^ ((20 : ℝ) / 20) / (rmsVal [1] + EPS))
      ∈ normalize_to_db [1] 20 := by
    unfold normalize_to_db
    rw [if_neg hrmsnot]
    exact List.mem_map_of_mem _ (by simp)
  have hb := hall _ hmem
  have heps0 : (0 : ℝ) < EPS := by
    unfold EPS
    positivity
  have heps1 : EPS ≤ 1 := by
    unfold EPS
    rw [show (-52 : ℤ) = -(52 : ℕ) by norm_num, zpow_neg, zpow_natCast]
    rw [inv_le_one_iff₀]
    right
    norm_num
  have hval : (1 : ℝ) * ((10 : ℝ) ^ ((20 : ℝ) / 20) / (rmsVal [1] + EPS))
      = 10 / (1 + EPS) := by
    rw [hrms, show ((20 : ℝ) / 20) = 1 by norm_num, Real.rpow_one, one_mul]
  rw [hval] at hb
  have hgt : CLIP_THRESHOLD < |10 / (1 + EPS)| := by
    rw [abs_of_pos (by positivity)]
    unfold CLIP_THRESHOLD
    rw [lt_div_iff₀ (by positivity)]
    nlinarith
  exact absurd hb (not_le.mpr hgt)

/-- C7: a buffer whose RMS is ≤ 0 (in particular any all-zero buffer) is
returned unchanged by both level normalizers, for every target dBFS. -/
theorem C7_silence_noop (audio : List ℝ) (t : ℝ) (h : rmsVal audio ≤ 0) :
    normalize_to_db audio t = audio ∧ normalize_to_level_db audio t = audio := by
  constructor
  · unfold normalize_to_db
    rw [if_pos h]
  · unfold normalize_to_level_db
    rw [if_pos h]

/-- C7 witness: the all-zero three-sample buffer has RMS 0 and is returned
unchanged at target −20 dBFS. -/
theorem C7_witness :
    rmsVal [0, 0, 0] ≤ 0 ∧ normalize_to_db [0, 0, 0] (-20) = [0, 0, 0] ∧
      normalize_to_level_db [0, 0, 0] (-20) = [0, 0, 0] := by
  have h : rmsVal [0, 0, 0] ≤ 0 := by
    unfold rmsVal meanSq sumSq
    norm_num [Real.zero_rpow]
  obtain ⟨h1, h2⟩ := C7_silence_noop [0, 0, 0] (-20) h
  exact ⟨h, h1, h2⟩

/-- The loudness formula as the specification words it (§4.1): `20 ·
log10(RMS + ε)` with `RMS = sqrt(mean(sample²))` and ε "the smallest
representable positive double", i.e. the smallest subnormal
`2 ^ (-1074)`.  Stated from the spec's words, to be compared with the
code's `rms_dbfs`, whose ε is `np.finfo(float).eps = 2 ^ (-52)`. -/
noncomputable def measure_dbfs_spec (audio : List ℝ) : ℝ :=
  20 * Real.logb 10 (Real.sqrt (meanSq audio) + 2 ^ (-1074 : ℤ))

/-- C9 (amended): the loudness measurement returns
`20 · log10(sqrt(mean(sample²)) + ε)` where ε is the machine epsilon
`2 ^ (-52)` (`np.finfo(float).eps`), not the smallest representable
positive double. -/
theorem C9_rms_dbfs_formula (audio : List ℝ) :
    rms_dbfs audio
      = 20 * Real.logb 10 (Real.sqrt (meanSq audio) + 2 ^ (-52 : ℤ)) := by
  unfold rms_dbfs rmsVal EPS
  rw [show (0.5 : ℝ) = 1 / 2 by norm_num, ← Real.sqrt_eq_rpow]

/-- C9 counterexample: on the silent buffer `[0]` the code's measurement
`20 · log10(0 + 2^(-52))` differs from the spec's claimed
`20 · log10(0 + 2^(-1074))`: the claimed ε (smallest representable
positive double) is not the ε the code uses (machine epsilon). -/
theorem C9_counterexample : rms_dbfs [0] ≠ measure_dbfs_spec [0] := by
  have hmean : meanSq [0] = 0 := by
    unfold meanSq sumSq
    norm_num
  have hrms : rmsVal [0] = 0 := by
    unfold rmsVal
    rw [hmean]
    exact Real.zero_rpow (by norm_num)
  unfold rms_dbfs measure_dbfs_spec EPS
  rw [hrms, hmean, Real.sqrt_zero, zero_add, zero_add]
  intro heq
  have hlt : ((2 : ℝ) ^ (-1074 : ℤ)) < ((2 : ℝ) ^ (-52 : ℤ)) := by
    apply zpow_lt_zpow_right₀ (by norm_num : (1 : ℝ) < 2)
    norm_num
  have hpos : (0 : ℝ) < (2 : ℝ) ^ (-1074 : ℤ) := by positivity
  have := Real.logb_lt_logb (b := 10) (by norm_num) hpos hlt
  nlinarith

/-- C1: for every source buffer of length ≥ 1, every sample rate, every
crossfade duration and every target length N ≥ 0, the loop synthesizer
returns a buffer of length exactly N. -/
theorem C1_extend_length (noise : List ℝ) (target_len : ℕ) (sr : ℤ) (cfs : ℝ)
    (h : 1 ≤ noise.length) :
    ∃ out, extend_noise_with_crossfade noise target_len sr cfs = .ok out ∧
      out.length = target_len := by
  obtain ⟨out, ho, hl, _⟩ := extend_spec noise target_len sr cfs h
  exact ⟨out, ho, hl⟩

/-- C1 witness: source `[1]`, target length 3. -/
theorem C1_witness :
    ∃ out, extend_noise_with_crossfade [1] 3 16000 CROSSFADE_SEC = .ok out ∧
      out.length = 3 :=
  C1_extend_length [1] 3 16000 CROSSFADE_SEC (by simp)

/-- C2: for every source with 1 ≤ length < target length, the loop
synthesizer terminates with a result (the fuel-indexed loop, whose every
iteration advances `pos` by `min (n − cf, target_len − pos) ≥ 1`, never
exhausts its `target_len + 1` fuel and never yields the non-termination
marker). -/
theorem C2_extend_terminates (noise : List ℝ) (target_len : ℕ) (sr : ℤ)
    (cfs : ℝ) (h1 : 1 ≤ noise.length) (h2 : noise.length < target_len) :
    ∃ out, extend_noise_with_crossfade noise target_len sr cfs = .ok out := by
  obtain ⟨out, ho, _, _⟩ := extend_spec noise target_len sr cfs h1
  exact ⟨out, ho⟩

/-- C2 witness: source `[1, 2]` of length 2 < target length 5. -/
theorem C2_witness :
    ∃ out, extend_noise_with_crossfade [1, 2] 5 16000 CROSSFADE_SEC = .ok out :=
  C2_extend_terminates [1, 2] 5 16000 CROSSFADE_SEC (by simp) (by simp)

/-- C10: for every nonempty source and every target length, every sample of
the synthesized buffer is bounded by the source's maximum absolute
sample, and at every crossfade index the fade-out and fade-in weights
sum to exactly 1 (each output sample is a source sample or a convex
combination of two bounded samples). -/
theorem C10_extend_bounded (noise : List ℝ) (target_len : ℕ) (sr : ℤ)
    (cfs : ℝ) (h : noise ≠ []) :
    (∃ out, extend_noise_with_crossfade noise target_len sr cfs = .ok out ∧
      ∀ x ∈ out, |x| ≤ listPeak noise) ∧
    ∀ (cf i : ℕ) (h1 : i < (linspace (1 : ℝ) 0 cf).length)
      (h2 : i < (linspace (0 : ℝ) 1 cf).length),
      (linspace (1 : ℝ) 0 cf)[i] + (linspace (0 : ℝ) 1 cf)[i] = 1 := by
  constructor
  · obtain ⟨out, ho, _, hb⟩ := extend_spec noise target_len sr cfs
      (List.length_pos.mpr h)
    exact ⟨out, ho, hb⟩
  · intro cf i h1 h2
    exact (fade_weights cf i h1 h2).2.2

/-- C10 witness: source `[1]`, target length 3: every output sample is
bounded by the source peak 1. -/
theorem C10_witness :
    (∃ out, extend_noise_with_crossfade [1] 3 16000 CROSSFADE_SEC = .ok out ∧
      ∀ x ∈ out, |x| ≤ listPeak [1]) ∧
    ∀ (cf i : ℕ) (h1 : i < (linspace (1 : ℝ) 0 cf).length)
      (h2 : i < (linspace (0 : ℝ) 1 cf).length),
      (linspace (1 : ℝ) 0 cf)[i] + (linspace (0 : ℝ) 1 cf)[i] = 1 :=
  C10_extend_bounded [1] 3 16000 CROSSFADE_SEC (by simp)

/-- On an empty source with positive target length the tiling fallback is
taken with `cf = min(int(cfs·sr), 0, 1) ≤ 0 < 1` and the Python
expression `target_len // 0` raises `ZeroDivisionError`. -/
lemma extend_empty_zero_division (target_len : ℕ) (sr : ℤ) (cfs : ℝ)
    (h : 0 < target_len) :
    extend_noise_with_crossfade [] target_len sr cfs = .error .zeroDivision := by
  unfold extend_noise_with_crossfade
  simp only [List.length_nil, Nat.cast_zero]
  rw [if_neg (by omega)]
  have hcflt : min (pyInt (cfs * (sr : ℝ)))
      (min ((0 : ℤ) / 2) (max 1 (Int.fdiv ((0 : ℤ) - 1) 2))) < 1 := by
    have e0 : min ((0 : ℤ) / 2) (max 1 (Int.fdiv ((0 : ℤ) - 1) 2)) = 0 := by decide
    rw [e0]
    exact lt_of_le_of_lt (min_le_right _ _) one_pos
  rw [if_pos hcflt]
  simp

/-- C8 (amended): invoking the loop synthesizer with a zero-length source
and positive target length fails, but with Python's untagged
`ZeroDivisionError` (from `target_len // 0` in the tiling fallback), not
with the spec's tagged `InvalidInput` condition. -/
theorem C8_empty_source_fails (target_len : ℕ) (sr : ℤ) (cfs : ℝ)
    (h : 0 < target_len) :
    extend_noise_with_crossfade [] target_len sr cfs = .error .zeroDivision :=
  extend_empty_zero_division target_len sr cfs h

/-- C8 witness: empty source, target length 7. -/
theorem C8_witness :
    extend_noise_with_crossfade [] 7 16000 CROSSFADE_SEC
      = .error .zeroDivision :=
  C8_empty_source_fails 7 16000 CROSSFADE_SEC (by norm_num)

/-- C8 counterexample: on the empty source with target length 5 the result
is not the tagged `InvalidInput` condition the claim describes (it is
`ZeroDivisionError`). -/
theorem C8_counterexample :
    extend_noise_with_crossfade [] 5 16000 CROSSFADE_SEC
      ≠ .error .invalidInput := by
  rw [extend_empty_zero_division 5 16000 CROSSFADE_SEC (by norm_num)]
  intro h
  injection h with h
  exact PyErr.noConfusion h

/-- With a nonempty noise buffer the mixer always succeeds and reports
`snr = clean_level_db - noise_level_db`. -/
lemma mix_ok_of_noise_nonempty (clean noise : List ℝ) (sr : ℤ) (nl cl : ℝ)
    (h : noise ≠ []) :
    ∃ out, mix_clean_and_noise clean noise sr nl cl = .ok (out, cl - nl) := by
  unfold mix_clean_and_noise
  dsimp only
  by_cases hsh : (normalize_to_db noise nl).length < clean.length
  · rw [if_pos hsh]
    have hlen : 1 ≤ (normalize_to_db noise nl).length := by
      rw [normalize_to_db_length]
      exact List.length_pos.mpr h
    obtain ⟨out2, ho, _, _⟩ := extend_spec (normalize_to_db noise nl)
      clean.length sr CROSSFADE_SEC hlen
    rw [ho]
    exact ⟨_, rfl⟩
  · rw [if_neg hsh]
    exact ⟨_, rfl⟩

/-- C4: whenever the mixer produces an output buffer, that buffer's length
equals the speech buffer's length, whatever the noise length (shorter,
equal, or longer: looped noise is synthesized to the speech length and
longer noise is truncated to it). -/
theorem C4_mix_length (clean noise : List ℝ) (sr : ℤ) (nl cl : ℝ)
    (out : List ℝ) (snr : ℝ)
    (h : mix_clean_and_noise clean noise sr nl cl = .ok (out, snr)) :
    out.length = clean.length :=
  (mix_ok_inv h).2.1

/-- C4 witness: two-sample speech, one-sample noise (looping path). -/
theorem C4_witness :
    ∃ (out : List ℝ) (snr : ℝ),
      mix_clean_and_noise [0, 0] [0] 16000 (-40) (-25) = .ok (out, snr) ∧
        out.length = 2 := by
  obtain ⟨out, ho⟩ := mix_ok_of_noise_nonempty [0, 0] [0] 16000 (-40) (-25)
    (by simp)
  have hl := C4_mix_length [0, 0] [0] 16000 (-40) (-25) out _ ho
  exact ⟨out, _, ho, by simpa using hl⟩

/-- C5: the realized SNR returned by the mixer is always
`clean_level_db - noise_level_db`, independent of the buffer contents and
of clipping. -/
theorem C5_mix_snr (clean noise : List ℝ) (sr : ℤ) (nl cl : ℝ)
    (out : List ℝ) (snr : ℝ)
    (h : mix_clean_and_noise clean noise sr nl cl = .ok (out, snr)) :
    snr = cl - nl :=
  (mix_ok_inv h).1

/-- C5 witness: speech level −25 dBFS and noise level −35 dBFS give
SNR exactly 10. -/
theorem C5_witness :
    ∃ (out : List ℝ) (snr : ℝ),
      mix_clean_and_noise [1] [1] 16000 (-35) (-25) = .ok (out, snr) ∧
        snr = 10 := by
  obtain ⟨out, ho⟩ := mix_ok_of_noise_nonempty [1] [1] 16000 (-35) (-25)
    (by simp)
  have hs := C5_mix_snr [1] [1] 16000 (-35) (-25) out _ ho
  refine ⟨out, _, ho, ?_⟩
  rw [hs]
  norm_num

/-- C6 (amended): a 32000-sample speech buffer mixed (at 16000 Hz) with an
8000-sample noise buffer at speech level −25 dBFS and noise level
−30 dBFS yields an output of length 32000 with every sample within
`[-1, 1]`, and the reported SNR is +5.0 dB (the code computes
`clean_level_db - noise_level_db = (−25) − (−30) = 5`, not the −5.0 the
spec states). -/
theorem C6_concrete_scenario (speech noise : List ℝ)
    (hs : speech.length = 32000) (hn : noise.length = 8000) :
    ∃ out, mix_clean_and_noise speech noise 16000 (-30) (-25) = .ok (out, 5) ∧
      out.length = 32000 ∧ ∀ x ∈ out, |x| ≤ 1 := by
  obtain ⟨out, ho⟩ := mix_ok_of_noise_nonempty speech noise 16000 (-30) (-25)
    (by intro hnil; rw [hnil] at hn; simp at hn)
  have h5 : ((-25 : ℝ)) - (-30) = 5 := by norm_num
  rw [h5] at ho
  obtain ⟨_, hlen, hb⟩ := mix_ok_inv ho
  exact ⟨out, ho, by rw [hlen, hs], hb⟩

/-- C6 witness: all-zero buffers of the stated lengths. -/
theorem C6_witness :
    ∃ out, mix_clean_and_noise (List.replicate 32000 (0 : ℝ))
        (List.replicate 8000 (0 : ℝ)) 16000 (-30) (-25) = .ok (out, 5) ∧
      out.length = 32000 ∧ ∀ x ∈ out, |x| ≤ 1 :=
  C6_concrete_scenario (List.replicate 32000 (0 : ℝ))
    (List.replicate 8000 (0 : ℝ)) (List.length_replicate 32000 0)
    (List.length_replicate 8000 0)

/-- C6 counterexample: in the concrete scenario the mixer does not report
−5.0 dB (it reports +5.0 dB): the claim's stated SNR is wrong. -/
theorem C6_counterexample :
    ¬ ∃ out, mix_clean_and_noise (List.replicate 32000 (0 : ℝ))
        (List.replicate 8000 (0 : ℝ)) 16000 (-30) (-25) = .ok (out, -5) := by
  rintro ⟨out, h⟩
  have hsnr := (mix_ok_inv h).1
  norm_num at hsnr
